import Mathlib

/-!
# Verification of the Publix weekly-ad deal pipeline

A shallow embedding of the deal-extraction, classification, container-location,
cache and search-filter logic of `src/publix_deal_scraper.py`, together with
theorems settling the specification claims about it.

Text is modelled as `List Char` (Python `str` over its characters); the ASCII
fragment of Python's case and whitespace handling is modelled explicitly.
-/

set_option autoImplicit false

namespace PublixDeals

/-- Characters Python's `str.strip()` / regex `\s` treat as whitespace
(ASCII fragment: space, tab, newline, carriage return, vertical tab, form feed). -/
def isPySpace (c : Char) : Bool :=
  c = ' ' || c = '\t' || c = '\n' || c = '\r' || c = '\x0b' || c = '\x0c'

/-- ASCII decimal digit, Python regex `\d` (ASCII fragment). -/
def isAsciiDigit (c : Char) : Bool :=
  '0' ≤ c && c ≤ '9'

/-- Python `str.lower()` on one character (ASCII fragment): uppercase A-Z maps
to a-z by adding 32 to the code point, everything else is unchanged. -/
def pyLowerChar (c : Char) : Char :=
  if 'A' ≤ c && c ≤ 'Z' then Char.ofNat (c.toNat + 32) else c

/-- Python `str.lower()` over a whole string. -/
def pyLower (s : List Char) : List Char :=
  s.map pyLowerChar

/-- The character list of a string literal. -/
def lit (s : String) : List Char :=
  s.data

/-- Python substring containment: `pat in h`. -/
def containsSub (h pat : List Char) : Bool :=
  pat.isPrefixOf h ||
    match h with
    | [] => false
    | _ :: t => containsSub t pat

/-- Drop trailing characters satisfying `isPySpace` (the right half of
Python `str.strip()`). -/
def dropTrailingSpaces : List Char → List Char
  | [] => []
  | c :: cs =>
    let r := dropTrailingSpaces cs
    if r.isEmpty && isPySpace c then [] else c :: r

/-- Python `str.strip()` (ASCII whitespace fragment). -/
def stripChars (s : List Char) : List Char :=
  dropTrailingSpaces (s.dropWhile isPySpace)

/-- Python `str.split("\n")`. -/
def splitNl : List Char → List (List Char)
  | [] => [[]]
  | c :: cs =>
    if c = '\n' then [] :: splitNl cs
    else
      match splitNl cs with
      | [] => [[c]]
      | h :: t => (c :: h) :: t

/-- Python `"\n".join(parts)`. -/
def joinNl : List (List Char) → List Char
  | [] => []
  | [x] => x
  | x :: y :: xs => x ++ '\n' :: joinNl (y :: xs)

/-- Python `" ".join(parts)`. -/
def joinSpace : List (List Char) → List Char
  | [] => []
  | [x] => x
  | x :: y :: xs => x ++ ' ' :: joinSpace (y :: xs)

/-- Python truthiness of an optional string: `None` and the empty string are
falsy, any other string is truthy. -/
def pyTruthyOptStr : Option (List Char) → Bool
  | none => false
  | some s => !s.isEmpty

/-!
## Regular-expression matchers

The scraper uses a handful of fixed regular expressions. Each is embedded as a
deterministic matcher. All of them interleave literal runs (whose characters
are neither whitespace nor digits) with greedy `\s*` / `\d+` segments, so
maximal-munch matching is complete: no backtracking can succeed where the
greedy match fails.
-/

/-- Match `\$\d+\.\d{2}` anchored at the start of `l`; on success return the
matched token and the remaining input after it. -/
def priceAt (l : List Char) : Option (List Char × List Char) :=
  match l with
  | '$' :: rest =>
    let ds := rest.takeWhile isAsciiDigit
    if ds.isEmpty then none
    else
      match rest.drop ds.length with
      | '.' :: d1 :: d2 :: rest2 =>
        if isAsciiDigit d1 && isAsciiDigit d2 then
          some ('$' :: ds ++ ['.', d1, d2], rest2)
        else none
      | _ => none
  | _ => none

/-- `re.findall(r"\$\d+\.\d{2}", text)`: all non-overlapping matches, leftmost
first, scanning resuming after each match. `fuel` bounds the recursion and is
instantiated with the input length, which each step strictly decreases. -/
def findallPricesGo : Nat → List Char → List (List Char)
  | 0, _ => []
  | _ + 1, [] => []
  | fuel + 1, c :: cs =>
    match priceAt (c :: cs) with
    | some (m, rest) => m :: findallPricesGo fuel rest
    | none => findallPricesGo fuel cs

/-- All `$D.DD` price tokens of a text, in order (source line 101). -/
def findallPrices (l : List Char) : List (List Char) :=
  findallPricesGo l.length l

/-- Match `save\s*up\s*to\s*\$(\d+\.\d{2})` anchored at the start of `l`;
return the captured group `\d+\.\d{2}` on success. -/
def saveUpToAt (l : List Char) : Option (List Char) :=
  match l with
  | 's' :: 'a' :: 'v' :: 'e' :: r1 =>
    match r1.dropWhile isPySpace with
    | 'u' :: 'p' :: r3 =>
      match r3.dropWhile isPySpace with
      | 't' :: 'o' :: r5 =>
        match r5.dropWhile isPySpace with
        | '$' :: r7 =>
          let ds := r7.takeWhile isAsciiDigit
          if ds.isEmpty then none
          else
            match r7.drop ds.length with
            | '.' :: d1 :: d2 :: _ =>
              if isAsciiDigit d1 && isAsciiDigit d2 then
                some (ds ++ ['.', d1, d2])
              else none
            | _ => none
        | _ => none
      | _ => none
    | _ => none
  | _ => none

/-- Match `save\s*\$(\d+\.\d{2})` anchored at the start of `l`; return the
captured group on success. -/
def saveAt (l : List Char) : Option (List Char) :=
  match l with
  | 's' :: 'a' :: 'v' :: 'e' :: r1 =>
    match r1.dropWhile isPySpace with
    | '$' :: r3 =>
      let ds := r3.takeWhile isAsciiDigit
      if ds.isEmpty then none
      else
        match r3.drop ds.length with
        | '.' :: d1 :: d2 :: _ =>
          if isAsciiDigit d1 && isAsciiDigit d2 then
            some (ds ++ ['.', d1, d2])
          else none
        | _ => none
    | _ => none
  | _ => none

/-- Match `save\s*up\s*to` (the bare pattern of `categorize_deal`, line 83)
anchored at the start of `l`. -/
def saveUpToBareAt (l : List Char) : Bool :=
  match l with
  | 's' :: 'a' :: 'v' :: 'e' :: r1 =>
    match r1.dropWhile isPySpace with
    | 'u' :: 'p' :: r3 =>
      match r3.dropWhile isPySpace with
      | 't' :: 'o' :: _ => true
      | _ => false
    | _ => false
  | _ => false

/-- Match `buy\s*\d+\s*get\s*\d+` anchored at the start of `l`. -/
def bogoNumAt (l : List Char) : Bool :=
  match l with
  | 'b' :: 'u' :: 'y' :: r1 =>
    let r2 := r1.dropWhile isPySpace
    let ds := r2.takeWhile isAsciiDigit
    if ds.isEmpty then false
    else
      match (r2.drop ds.length).dropWhile isPySpace with
      | 'g' :: 'e' :: 't' :: r4 =>
        match r4.dropWhile isPySpace with
        | d :: _ => isAsciiDigit d
        | [] => false
      | _ => false
  | _ => false

/-- `re.search` for a capturing pattern: try the anchored matcher at every
position, leftmost first, and return its capture on the first success. -/
def searchCapture (p : List Char → Option (List Char)) : List Char → Option (List Char)
  | [] => p []
  | c :: cs =>
    match p (c :: cs) with
    | some r => some r
    | none => searchCapture p cs

/-- `re.search` for a boolean matcher: does the anchored matcher succeed at
some position? -/
def searchBool (p : List Char → Bool) : List Char → Bool
  | [] => p []
  | c :: cs => p (c :: cs) || searchBool p cs

/-!
## Text Classifier (source lines 60-87)
-/

/-- The spelled-out BOGO phrases of `detect_bogo` (source line 75). -/
def bogo_phrases : List (List Char) :=
  [lit "buy one get one", lit "buy 1 get 1", lit "b1g1", lit "buy one, get one"]

/-- `detect_bogo(text)` (source lines 60-77): the `buy\s*\d+\s*get\s*\d+`
pattern, the substring `"bogo"`, or any spelled-out phrase, all on the
lowercased text. -/
def detect_bogo (text : List Char) : Bool :=
  let text_lower := pyLower text
  if searchBool bogoNumAt text_lower then true
  else if containsSub text_lower (lit "bogo") then true
  else bogo_phrases.any (fun phrase => containsSub text_lower phrase)

/-- `categorize_deal(text, prices)` (source lines 80-87). -/
def categorize_deal (text : List Char) (prices : List (List Char)) : List Char :=
  if detect_bogo text then lit "BOGO"
  else if containsSub (pyLower text) (lit "save") || searchBool saveUpToBareAt (pyLower text) then
    lit "Discount"
  else if prices.length > 1 then lit "Price Drop"
  else lit "Deal"

/-- The savings extraction of `extract_deal_info` (source lines 108-115): try
`save\s*up\s*to\s*\$(\d+\.\d{2})` on the lowercased text, then
`save\s*\$(\d+\.\d{2})`; prefix the captured amount with `$`. (The source's
`elif not savings_match` is always true when reached and folds away.) -/
def extract_savings (full_text : List Char) : Option (List Char) :=
  match searchCapture saveUpToAt (pyLower full_text) with
  | some d => some ('$' :: d)
  | none =>
    match searchCapture saveAt (pyLower full_text) with
    | some d => some ('$' :: d)
    | none => none

/-!
## Deal Extractor (source lines 90-148)
-/

/-- A container node's descendant strings in document order; bs4's
`get_text(separator="\n", strip=True)` joins the stripped non-empty ones
with newlines. -/
def get_text (container : List (List Char)) : List Char :=
  joinNl ((container.map stripChars).filter (fun s => !s.isEmpty))

/-- The line list of `extract_deal_info` (source line 97):
`[l.strip() for l in full_text.split("\n") if l.strip()]`. -/
def linesOf (full_text : List Char) : List (List Char) :=
  ((splitNl full_text).map stripChars).filter (fun l => !l.isEmpty)

/-- The deal-description loop of `extract_deal_info` (source lines 118-126):
the first line containing both "buy" and "get" in lowercase, or containing
"save", wins; the loop breaks at the first line matching either test. -/
def findDescription : List (List Char) → Option (List Char)
  | [] => none
  | line :: rest =>
    let line_lower := pyLower line
    if containsSub line_lower (lit "buy") && containsSub line_lower (lit "get") then some line
    else if containsSub line_lower (lit "save") then some line
    else findDescription rest

/-- A normalized deal record (the dict returned at source lines 137-145). -/
structure DealRecord where
  product_name : List Char
  current_price : Option (List Char)
  savings : Option (List Char)
  deal_type : List Char
  deal_description : Option (List Char)
  is_bogo : Bool
  full_text : List Char
deriving Repr, DecidableEq

/-- `has_deal` (source line 132): Python evaluates
`is_bogo or savings or deal_description or len(prices) > 1` by truthiness. -/
def has_deal_signals (full_text : List Char) : Bool :=
  detect_bogo full_text ||
    pyTruthyOptStr (extract_savings full_text) ||
    pyTruthyOptStr (findDescription (linesOf full_text)) ||
    decide ((findallPrices full_text).length > 1)

/-- The record built at source lines 137-145 from the container text. -/
def mk_record (full_text : List Char) : DealRecord :=
  { product_name := (linesOf full_text).headD (lit "Unknown Product")
    current_price := (findallPrices full_text).head?
    savings := extract_savings full_text
    deal_type := categorize_deal full_text (findallPrices full_text)
    deal_description := findDescription (linesOf full_text)
    is_bogo := detect_bogo full_text
    full_text := full_text }

/-- `extract_deal_info(container)` (source lines 90-148). The container is
given by its descendant strings; the `except` clause is unreachable in this
pure model. -/
def extract_deal_info (container : List (List Char)) : Option DealRecord :=
  let full_text := get_text container
  if full_text.isEmpty || full_text.length < 5 then none
  else if !has_deal_signals full_text then none
  else some (mk_record full_text)

/-!
## Container Locator (source lines 151-177)

A document node is modelled by its tag name, its (multi-valued) `class`
attribute, its other attributes, and an identity key `id` standing for the
Python object identity of the bs4 node; distinct nodes of one parsed document
always have distinct identities. The walk up from one price-text node is
modelled by the node's ancestor chain, immediate parent first.
-/

/-- A document tree node as seen by the locator. -/
structure PNode where
  id : Nat
  name : String
  classes : List String
  attrs : List (String × String)
deriving Repr, DecidableEq

/-- bs4 `node.get(key)`: the attribute value, or `None` when absent. -/
def pyGetAttr (attrs : List (String × String)) (key : String) : Option String :=
  (attrs.find? (fun kv => kv.fst = key)).map (fun kv => kv.snd)

/-- Python truthiness of `node.get(key)`: present with a non-empty value. -/
def pyTruthyAttr (o : Option String) : Bool :=
  match o with
  | none => false
  | some s => !(s = "")

/-- The container-class keywords (source line 168). -/
def container_keywords : List (List Char) :=
  [lit "product", lit "item", lit "card", lit "deal", lit "tile"]

/-- `" ".join(parent.get("class", [])).lower()` (source lines 163-164). -/
def class_str (n : PNode) : List Char :=
  pyLower (joinSpace (n.classes.map String.data))

/-- The class-keyword test of source lines 166-169. -/
def classMatch (n : PNode) : Bool :=
  container_keywords.any (fun keyword => containsSub (class_str n) keyword)

/-- The marker-attribute test of source line 173:
`parent.get("data-testid") or parent.get("data-product-id")`. -/
def markerMatch (n : PNode) : Bool :=
  pyTruthyAttr (pyGetAttr n.attrs "data-testid") ||
    pyTruthyAttr (pyGetAttr n.attrs "data-product-id")

/-- A node qualifies as a deal container (source lines 162-175): it is a
`div` — the block-level element the source tests for — and its class string
contains a keyword or it carries a truthy marker attribute. -/
def qualifies (n : PNode) : Bool :=
  n.name = "div" && (classMatch n || markerMatch n)

/-- The `for _ in range(10)` ancestor walk of source lines 160-177 over one
price node's ancestor chain: inspect at most `steps` ancestors, returning the
first qualifying one. Once the chain is exhausted the source keeps iterating
with `parent = None`, which finds nothing; `[]` therefore returns `none`. -/
def walk_up : List PNode → Nat → Option PNode
  | _, 0 => none
  | [], _ + 1 => none
  | p :: rest, steps + 1 => if qualifies p then some p else walk_up rest steps

/-- Modelled from the spec: the `product_containers = set()` of source line
158 holds bs4 `Tag` objects, whose set semantics live in the external bs4
library, not under `src/`; per the spec it is an identity-based set ("dedup
by node identity ... not by content"), modelled as insertion keyed on the
node identity `id`. -/
def add_container (s : List PNode) (p : PNode) : List PNode :=
  if s.any (fun q => q.id = p.id) then s else s ++ [p]

/-- One iteration of the locator loop: walk up from one price-text node's
chain and add the found container (if any) to the set. -/
def locStep (s : List PNode) (chain : List PNode) : List PNode :=
  match walk_up chain 10 with
  | some p => add_container s p
  | none => s

/-- The container-collection loop of source lines 159-177: one ancestor chain
per price-text node, in document order; each walk's result (if any) is added
to the identity-keyed set. -/
def find_containers (chains : List (List PNode)) : List PNode :=
  chains.foldl locStep []

/-!
## Result Cache (source lines 350-376)

Cache entries are JSON objects; field values are modelled by a small JSON
value type. Time is in epoch seconds.
-/

/-- A JSON value as stored in a cache entry's fields. Arrays and objects are
carried opaquely by this model (the cache reader never inspects them). -/
inductive JVal where
  | null
  | jbool (b : Bool)
  | jnum (n : Int)
  | jstr (s : String)
  | jarr (tag : Nat)
  | jobj (tag : Nat)
deriving Repr, DecidableEq

/-- A cache entry: a JSON object, field names to values. -/
def JEntry := List (String × JVal)
deriving DecidableEq

/-- Python `dict.get` on a JSON object. -/
def jsonGet (fields : JEntry) (key : String) : Option JVal :=
  (List.find? (fun kv => kv.fst = key) fields).map (fun kv => kv.snd)

/-- `isinstance(x, (int, float))` (source line 372). Python's `bool` is a
subclass of `int`, so JSON booleans pass this check. -/
def isNumericPy : JVal → Bool
  | .jnum _ => true
  | .jbool _ => true
  | _ => false

/-- The numeric value Python arithmetic sees: `True` is 1, `False` is 0. -/
def toNumPy : JVal → Int
  | .jnum n => n
  | .jbool b => if b then 1 else 0
  | _ => 0

/-- `build_cache_key(store_number)` (source lines 350-352). Python's
`store_number or "ALL"` treats the empty string like `None`. -/
def build_cache_key (store_number : Option String) : String :=
  let store_part :=
    match store_number with
    | some s => if s = "" then "ALL" else s
    | none => "ALL"
  "all_deals::" ++ store_part

/-- `cache.get(key)` (source line 368) on the loaded cache dict. -/
def cache_lookup (cache : List (String × JEntry)) (key : String) : Option JEntry :=
  (List.find? (fun kv => kv.fst = key) cache).map (fun kv => kv.snd)

/-- The body of `read_cache_entry` after the lookup (source lines 369-376):
`if not entry` rejects an empty entry; then the entry needs a numeric
`timestamp` no older than `ttl_seconds`. -/
def check_entry (entry : JEntry) (ttl_seconds : Int) (now : Int) : Option JEntry :=
  if entry.isEmpty then none
  else
    match jsonGet entry "timestamp" with
    | none => none
    | some ts =>
      if !isNumericPy ts then none
      else if now - toNumPy ts > ttl_seconds then none
      else some entry

/-- `read_cache_entry(cache_path, key, ttl_seconds)` (source lines 366-376),
with the loaded cache dict and the clock `now` made explicit. A missing entry
is rejected by the same `if not entry` that rejects an empty one. -/
def read_cache_entry (cache : List (String × JEntry)) (key : String)
    (ttl_seconds : Int) (now : Int) : Option JEntry :=
  match cache_lookup cache key with
  | none => none
  | some entry => check_entry entry ttl_seconds now

/-!
## Search Filter (source lines 446 and 527-532)
-/

/-- The matching-deals filter of `run_scraper`:
`search_lowers = [item.lower() for item in search_items]` and then
`[d for d in all_deals if any(term in d["product_name"].lower() for term in search_lowers)]`. -/
def filter_matching (all_deals : List DealRecord) (search_items : List (List Char)) :
    List DealRecord :=
  let search_lowers := search_items.map pyLower
  all_deals.filter
    (fun d => search_lowers.any (fun term => containsSub (pyLower d.product_name) term))

/-!
## Specification-side predicates and concrete inputs
-/

/-- The per-line test the description loop applies: the line contains both
"buy" and "get" in lowercase, or contains "save". Stated separately so the
loop can be characterized as `List.find?` of this predicate. -/
def descrPred (line : List Char) : Bool :=
  (containsSub (pyLower line) (lit "buy") && containsSub (pyLower line) (lit "get")) ||
    containsSub (pyLower line) (lit "save")

/-- The spec's worked example container: `"Ice Cream\nSave up to $2.00\n$4.99"`. -/
def iceCream : List (List Char) :=
  [lit "Ice Cream", lit "Save up to $2.00", lit "$4.99"]

/-- The record `extract_deal_info` produces for `iceCream`. -/
def iceRec : DealRecord :=
  { product_name := lit "Ice Cream"
    current_price := some (lit "$2.00")
    savings := some (lit "$2.00")
    deal_type := lit "Discount"
    deal_description := some (lit "Save up to $2.00")
    is_bogo := false
    full_text := lit "Ice Cream\nSave up to $2.00\n$4.99" }

/-- A container whose text has an earlier line containing "save" and a later
line containing both "buy" and "get". -/
def saveThenBogo : List (List Char) :=
  [lit "Big Deal Item", lit "Save $1.00 now", lit "Buy 1 Get 1 free"]

/-- A qualifying container node. -/
def twinA : PNode := { id := 1, name := "div", classes := ["product"], attrs := [] }

/-- A distinct node with markup identical to `twinA` (only the identity differs). -/
def twinB : PNode := { id := 2, name := "div", classes := ["product"], attrs := [] }

/-- A qualifying node reachable from two different price-text nodes. -/
def nodeC : PNode := { id := 3, name := "div", classes := ["deal-card"], attrs := [] }

/-- A marker-bearing `div` with no container keyword in its class. -/
def markerNode : PNode :=
  { id := 4, name := "div", classes := ["wrapper"], attrs := [("data-testid", "x")] }

/-- A demonstration clock value (epoch seconds). -/
def demoNow : Int := 1760000000

/-- A cache with one entry whose timestamp is 3700 seconds before `demoNow`. -/
def demoCache : List (String × JEntry) :=
  [("all_deals::ALL", [("timestamp", JVal.jnum (demoNow - 3700))])]

/-!
## Character-level lemmas
-/

theorem char_eq_of_toNat_eq {a b : Char} (h : a.toNat = b.toNat) : a = b :=
  Char.ext (UInt32.ext h)

theorem toNat_ofNat_of_lower_range (n : Nat) (h1 : 97 ≤ n) (h2 : n ≤ 122) :
    (Char.ofNat n).toNat = n := by
  have hv : n.isValidChar := Or.inl (by omega)
  unfold Char.ofNat
  rw [dif_pos hv]
  unfold Char.ofNatAux Char.toNat
  simp [UInt32.toNat, UInt32.ofNatCore]

theorem toNat_pyLowerChar_of_upper {c : Char} (h : ('A' ≤ c && c ≤ 'Z') = true) :
    (pyLowerChar c).toNat = c.toNat + 32 := by
  have h1 : 'A' ≤ c ∧ c ≤ 'Z' := by simpa using h
  have ha : (65 : Nat) ≤ c.toNat := h1.1
  have hz : c.toNat ≤ (90 : Nat) := h1.2
  unfold pyLowerChar
  rw [if_pos h]
  exact toNat_ofNat_of_lower_range _ (by omega) (by omega)

theorem toNat_upper_bounds {c : Char} (h : ('A' ≤ c && c ≤ 'Z') = true) :
    65 ≤ c.toNat ∧ c.toNat ≤ 90 := by
  have h1 : 'A' ≤ c ∧ c ≤ 'Z' := by simpa using h
  exact ⟨h1.1, h1.2⟩

theorem pyLowerChar_nl_iff (c : Char) : pyLowerChar c = '\n' ↔ c = '\n' := by
  by_cases h : ('A' ≤ c && c ≤ 'Z') = true
  · have ht := toNat_pyLowerChar_of_upper h
    have hb := toNat_upper_bounds h
    constructor
    · intro he
      have : (pyLowerChar c).toNat = 10 := by rw [he]; rfl
      omega
    · intro he
      have : c.toNat = 10 := by rw [he]; rfl
      omega
  · unfold pyLowerChar
    rw [if_neg h]

theorem isPySpace_eq_false_of_toNat_ge (x : Char) (h : 33 ≤ x.toNat) :
    isPySpace x = false := by
  have hs : ∀ w : Char, w.toNat < 33 → x ≠ w := by
    intro w hw he
    rw [he] at h
    omega
  unfold isPySpace
  simp [hs ' ' (by decide), hs '\t' (by decide), hs '\n' (by decide),
    hs '\r' (by decide), hs '\x0b' (by decide), hs '\x0c' (by decide)]

theorem isPySpace_pyLowerChar (c : Char) : isPySpace (pyLowerChar c) = isPySpace c := by
  by_cases h : ('A' ≤ c && c ≤ 'Z') = true
  · have ht := toNat_pyLowerChar_of_upper h
    have hb := toNat_upper_bounds h
    rw [isPySpace_eq_false_of_toNat_ge _ (by omega),
      isPySpace_eq_false_of_toNat_ge _ (by omega)]
  · unfold pyLowerChar
    rw [if_neg h]

/-!
## Substring lemmas
-/

theorem containsSub_nil_iff (pat : List Char) : containsSub [] pat = true ↔ pat = [] := by
  cases pat <;> simp [containsSub, List.isPrefixOf]

theorem containsSub_of_isPrefixOf {l pat : List Char} (h : pat.isPrefixOf l = true) :
    containsSub l pat = true := by
  unfold containsSub
  rw [h]
  rfl

theorem containsSub_cons_eq (c : Char) (t pat : List Char) :
    containsSub (c :: t) pat = (pat.isPrefixOf (c :: t) || containsSub t pat) := rfl

theorem dropTrailingSpaces_cons (c : Char) (cs : List Char) :
    dropTrailingSpaces (c :: cs) =
      if (dropTrailingSpaces cs).isEmpty && isPySpace c then [] else c :: dropTrailingSpaces cs := rfl

theorem containsSub_cons_of_tail {t pat : List Char} (c : Char)
    (h : containsSub t pat = true) : containsSub (c :: t) pat = true := by
  rw [containsSub_cons_eq, h]
  simp

theorem ne_nil_of_containsSub {l pat : List Char} (hp : pat ≠ [])
    (h : containsSub l pat = true) : l ≠ [] := by
  intro he
  subst he
  exact hp ((containsSub_nil_iff pat).mp h)

theorem isPrefixOf_head_cases {l pat : List Char} {c : Char} {t : List Char}
    (hl : l = c :: t) (h : pat.isPrefixOf l = true) :
    pat = [] ∨ ∃ ps, pat = c :: ps ∧ ps.isPrefixOf t = true := by
  subst hl
  cases pat with
  | nil => exact Or.inl rfl
  | cons p ps =>
    right
    simp only [List.isPrefixOf, Bool.and_eq_true, beq_iff_eq] at h
    exact ⟨ps, by rw [h.1], h.2⟩

theorem containsSub_dropWhile_spaces {l pat : List Char} (hp : pat ≠ [])
    (hns : ∀ ch ∈ pat, isPySpace ch = false) (h : containsSub l pat = true) :
    containsSub (l.dropWhile isPySpace) pat = true := by
  induction l with
  | nil => simpa using h
  | cons c cs ih =>
    by_cases hc : isPySpace c = true
    · rw [List.dropWhile_cons_of_pos hc]
      apply ih
      unfold containsSub at h
      rcases Bool.or_eq_true _ _ |>.mp h with hpre | htail
      · rcases isPrefixOf_head_cases rfl hpre with he | ⟨ps, hpc, _⟩
        · exact absurd he hp
        · have := hns c (by rw [hpc]; exact List.mem_cons_self c ps)
          rw [this] at hc
          exact absurd hc (by simp)
      · exact htail
    · rw [List.dropWhile_cons_of_neg (by simpa using hc)]
      exact h

theorem isPrefixOf_dropTrailingSpaces {pat l : List Char}
    (hns : ∀ ch ∈ pat, isPySpace ch = false) (h : pat.isPrefixOf l = true) :
    pat.isPrefixOf (dropTrailingSpaces l) = true := by
  induction pat generalizing l with
  | nil => simp [List.isPrefixOf]
  | cons p ps ih =>
    cases l with
    | nil => simp [List.isPrefixOf] at h
    | cons c t =>
      simp only [List.isPrefixOf, Bool.and_eq_true, beq_iff_eq] at h
      obtain ⟨hpc, hps⟩ := h
      subst hpc
      have hnsp : isPySpace p = false := hns p (List.mem_cons_self p ps)
      rw [dropTrailingSpaces_cons, hnsp]
      simp only [Bool.and_false, Bool.false_eq_true, if_false]
      simp only [List.isPrefixOf, beq_self_eq_true, Bool.true_and]
      exact ih (fun ch hch => hns ch (List.mem_cons_of_mem p hch)) hps

theorem containsSub_dropTrailingSpaces {l pat : List Char} (hp : pat ≠ [])
    (hns : ∀ ch ∈ pat, isPySpace ch = false) (h : containsSub l pat = true) :
    containsSub (dropTrailingSpaces l) pat = true := by
  induction l with
  | nil => simpa using h
  | cons c cs ih =>
    unfold containsSub at h
    rcases Bool.or_eq_true _ _ |>.mp h with hpre | htail
    · exact containsSub_of_isPrefixOf (isPrefixOf_dropTrailingSpaces hns hpre)
    · have hcs := ih htail
      have hne : dropTrailingSpaces cs ≠ [] := ne_nil_of_containsSub hp hcs
      have hemp : (dropTrailingSpaces cs).isEmpty = false := by
        cases he : dropTrailingSpaces cs with
        | nil => exact absurd he hne
        | cons _ _ => rfl
      rw [dropTrailingSpaces_cons, hemp]
      simp only [Bool.false_and, Bool.false_eq_true, if_false]
      exact containsSub_cons_of_tail c hcs

theorem containsSub_stripChars {l pat : List Char} (hp : pat ≠ [])
    (hns : ∀ ch ∈ pat, isPySpace ch = false) (h : containsSub l pat = true) :
    containsSub (stripChars l) pat = true :=
  containsSub_dropTrailingSpaces hp hns (containsSub_dropWhile_spaces hp hns h)

/-!
## Split and lowercase commutation lemmas
-/

theorem splitNl_ne_nil (l : List Char) : splitNl l ≠ [] := by
  cases l with
  | nil => simp [splitNl]
  | cons c cs =>
    unfold splitNl
    by_cases hc : c = '\n'
    · rw [if_pos hc]
      simp
    · rw [if_neg hc]
      cases splitNl cs <;> simp

theorem splitNl_pyLower (l : List Char) :
    splitNl (pyLower l) = (splitNl l).map pyLower := by
  induction l with
  | nil => rfl
  | cons c cs ih =>
    show splitNl (pyLowerChar c :: pyLower cs) = (splitNl (c :: cs)).map pyLower
    unfold splitNl
    by_cases hc : c = '\n'
    · rw [if_pos ((pyLowerChar_nl_iff c).mpr hc), if_pos hc]
      rw [ih]
      rfl
    · rw [if_neg (fun he => hc ((pyLowerChar_nl_iff c).mp he)), if_neg hc]
      rw [ih]
      cases he : splitNl cs with
      | nil => exact absurd he (splitNl_ne_nil cs)
      | cons h t => rfl

theorem isEmpty_map {α β : Type} (f : α → β) (l : List α) :
    (l.map f).isEmpty = l.isEmpty := by
  cases l <;> rfl

theorem dropTrailingSpaces_pyLower (l : List Char) :
    dropTrailingSpaces (pyLower l) = pyLower (dropTrailingSpaces l) := by
  induction l with
  | nil => rfl
  | cons c cs ih =>
    show dropTrailingSpaces (pyLowerChar c :: pyLower cs) = pyLower (dropTrailingSpaces (c :: cs))
    rw [dropTrailingSpaces_cons, dropTrailingSpaces_cons, ih]
    rw [show pyLower (dropTrailingSpaces cs) = (dropTrailingSpaces cs).map pyLowerChar from rfl]
    rw [isEmpty_map, isPySpace_pyLowerChar]
    by_cases hcond : ((dropTrailingSpaces cs).isEmpty && isPySpace c) = true
    · rw [if_pos hcond, if_pos hcond]
      rfl
    · rw [if_neg hcond, if_neg hcond]
      rfl

theorem dropWhile_spaces_pyLower (l : List Char) :
    (pyLower l).dropWhile isPySpace = pyLower (l.dropWhile isPySpace) := by
  induction l with
  | nil => rfl
  | cons c cs ih =>
    show (pyLowerChar c :: pyLower cs).dropWhile isPySpace = pyLower ((c :: cs).dropWhile isPySpace)
    by_cases hc : isPySpace c = true
    · rw [List.dropWhile_cons_of_pos (by rw [isPySpace_pyLowerChar]; exact hc),
        List.dropWhile_cons_of_pos hc]
      exact ih
    · rw [List.dropWhile_cons_of_neg (by rw [isPySpace_pyLowerChar]; simpa using hc),
        List.dropWhile_cons_of_neg (by simpa using hc)]
      rfl

theorem stripChars_pyLower (l : List Char) :
    stripChars (pyLower l) = pyLower (stripChars l) := by
  unfold stripChars
  rw [dropWhile_spaces_pyLower, dropTrailingSpaces_pyLower]

theorem isPrefixOf_splitNl_head {pat l : List Char}
    (hnl : ∀ ch ∈ pat, ch ≠ '\n') (h : pat.isPrefixOf l = true) :
    pat.isPrefixOf ((splitNl l).headD []) = true := by
  induction pat generalizing l with
  | nil => simp [List.isPrefixOf]
  | cons p ps ih =>
    cases l with
    | nil => simp [List.isPrefixOf] at h
    | cons c t =>
      simp only [List.isPrefixOf, Bool.and_eq_true, beq_iff_eq] at h
      obtain ⟨hpc, hps⟩ := h
      subst hpc
      have hpnl : p ≠ '\n' := hnl p (List.mem_cons_self p ps)
      unfold splitNl
      rw [if_neg hpnl]
      have iht := ih (fun ch hch => hnl ch (List.mem_cons_of_mem p hch)) hps
      cases he : splitNl t with
      | nil => exact absurd he (splitNl_ne_nil t)
      | cons hseg tsegs =>
        rw [he] at iht
        simp only [List.headD_cons] at iht ⊢
        simp only [List.isPrefixOf, beq_self_eq_true, Bool.true_and]
        exact iht

theorem containsSub_splitNl {l pat : List Char} (hp : pat ≠ [])
    (hnl : ∀ ch ∈ pat, ch ≠ '\n') (h : containsSub l pat = true) :
    ∃ seg ∈ splitNl l, containsSub seg pat = true := by
  induction l with
  | nil => exact absurd ((containsSub_nil_iff pat).mp h) hp
  | cons c cs ih =>
    rw [containsSub_cons_eq] at h
    rcases Bool.or_eq_true _ _ |>.mp h with hpre | htail
    · refine ⟨(splitNl (c :: cs)).headD [], ?_, ?_⟩
      · cases he : splitNl (c :: cs) with
        | nil => exact absurd he (splitNl_ne_nil _)
        | cons hseg tsegs => simp
      · exact containsSub_of_isPrefixOf (isPrefixOf_splitNl_head hnl hpre)
    · obtain ⟨seg, hmem, hseg⟩ := ih htail
      unfold splitNl
      by_cases hc : c = '\n'
      · rw [if_pos hc]
        exact ⟨seg, List.mem_cons_of_mem _ hmem, hseg⟩
      · rw [if_neg hc]
        cases he : splitNl cs with
        | nil => exact absurd he (splitNl_ne_nil cs)
        | cons hseg0 tsegs =>
          rw [he] at hmem
          rcases List.mem_cons.mp hmem with hh | ht
          · subst hh
            exact ⟨c :: seg, List.mem_cons_self _ _, containsSub_cons_of_tail c hseg⟩
          · exact ⟨seg, List.mem_cons_of_mem _ ht, hseg⟩

/-!
## Description-loop and savings-matcher lemmas
-/

theorem lit_save_eq : lit "save" = ['s', 'a', 'v', 'e'] := rfl

theorem findDescription_cons (line : List Char) (rest : List (List Char)) :
    findDescription (line :: rest) =
      if containsSub (pyLower line) (lit "buy") && containsSub (pyLower line) (lit "get") then
        some line
      else if containsSub (pyLower line) (lit "save") then some line
      else findDescription rest := rfl

theorem findDescription_eq_find (ls : List (List Char)) :
    findDescription ls = ls.find? descrPred := by
  induction ls with
  | nil => rfl
  | cons line rest ih =>
    rw [findDescription_cons]
    by_cases hp : descrPred line = true
    · rw [List.find?_cons_of_pos _ hp]
      unfold descrPred at hp
      rcases Bool.or_eq_true _ _ |>.mp hp with h1 | h2
      · rw [if_pos h1]
      · by_cases h1 : (containsSub (pyLower line) (lit "buy") &&
            containsSub (pyLower line) (lit "get")) = true
        · rw [if_pos h1]
        · rw [if_neg h1, if_pos h2]
    · rw [List.find?_cons_of_neg _ hp]
      unfold descrPred at hp
      have hfalse : (containsSub (pyLower line) (lit "buy") &&
          containsSub (pyLower line) (lit "get") ||
            containsSub (pyLower line) (lit "save")) = false :=
        Bool.eq_false_iff.mpr hp
      have hsplit := Bool.or_eq_false_iff.mp hfalse
      rw [if_neg (Bool.eq_false_iff.mp hsplit.1), if_neg (Bool.eq_false_iff.mp hsplit.2)]
      exact ih

theorem findDescription_mem {ls : List (List Char)} {l : List Char}
    (h : findDescription ls = some l) : l ∈ ls := by
  rw [findDescription_eq_find] at h
  exact List.mem_of_find?_eq_some h

theorem findDescription_isSome_of_save {ls : List (List Char)} {l : List Char}
    (hmem : l ∈ ls) (hsave : containsSub (pyLower l) (lit "save") = true) :
    (findDescription ls).isSome = true := by
  rw [findDescription_eq_find]
  have hpred : descrPred l = true := by
    unfold descrPred
    rw [hsave]
    simp
  cases he : ls.find? descrPred with
  | some _ => rfl
  | none => exact absurd hpred (List.find?_eq_none.mp he l hmem)

theorem saveUpToAt_isPrefixOf {l d : List Char} (h : saveUpToAt l = some d) :
    (lit "save").isPrefixOf l = true := by
  unfold saveUpToAt at h
  split at h
  · rw [lit_save_eq]
    simp [List.isPrefixOf]
  · exact absurd h (by simp)

theorem saveAt_isPrefixOf {l d : List Char} (h : saveAt l = some d) :
    (lit "save").isPrefixOf l = true := by
  unfold saveAt at h
  split at h
  · rw [lit_save_eq]
    simp [List.isPrefixOf]
  · exact absurd h (by simp)

theorem saveUpToBareAt_isPrefixOf {l : List Char} (h : saveUpToBareAt l = true) :
    (lit "save").isPrefixOf l = true := by
  unfold saveUpToBareAt at h
  split at h
  · rw [lit_save_eq]
    simp [List.isPrefixOf]
  · exact absurd h (by simp)

theorem searchCapture_containsSub {p : List Char → Option (List Char)} {l d : List Char}
    (hpre : ∀ l' d', p l' = some d' → (lit "save").isPrefixOf l' = true)
    (h : searchCapture p l = some d) : containsSub l (lit "save") = true := by
  induction l with
  | nil => exact containsSub_of_isPrefixOf (hpre [] d h)
  | cons c cs ih =>
    unfold searchCapture at h
    cases he : p (c :: cs) with
    | some r => exact containsSub_of_isPrefixOf (hpre _ _ he)
    | none =>
      rw [he] at h
      exact containsSub_cons_of_tail c (ih h)

theorem searchBool_containsSub {p : List Char → Bool} {l : List Char}
    (hpre : ∀ l', p l' = true → (lit "save").isPrefixOf l' = true)
    (h : searchBool p l = true) : containsSub l (lit "save") = true := by
  induction l with
  | nil => exact containsSub_of_isPrefixOf (hpre [] h)
  | cons c cs ih =>
    unfold searchBool at h
    rcases Bool.or_eq_true _ _ |>.mp h with hh | ht
    · exact containsSub_of_isPrefixOf (hpre _ hh)
    · exact containsSub_cons_of_tail c (ih ht)

theorem extract_savings_shape {t s : List Char} (h : extract_savings t = some s) :
    ∃ d, s = '$' :: d := by
  unfold extract_savings at h
  cases h1 : searchCapture saveUpToAt (pyLower t) with
  | some d =>
    rw [h1] at h
    exact ⟨d, (Option.some.inj h).symm⟩
  | none =>
    rw [h1] at h
    cases h2 : searchCapture saveAt (pyLower t) with
    | some d =>
      rw [h2] at h
      exact ⟨d, (Option.some.inj h).symm⟩
    | none =>
      rw [h2] at h
      exact absurd h (by simp)

theorem extract_savings_containsSave {t s : List Char} (h : extract_savings t = some s) :
    containsSub (pyLower t) (lit "save") = true := by
  unfold extract_savings at h
  cases h1 : searchCapture saveUpToAt (pyLower t) with
  | some d => exact searchCapture_containsSub (fun _ _ => saveUpToAt_isPrefixOf) h1
  | none =>
    rw [h1] at h
    cases h2 : searchCapture saveAt (pyLower t) with
    | some d => exact searchCapture_containsSub (fun _ _ => saveAt_isPrefixOf) h2
    | none =>
      rw [h2] at h
      exact absurd h (by simp)

theorem save_chars_not_space : ∀ ch ∈ lit "save", isPySpace ch = false := by
  intro ch hch
  rw [lit_save_eq] at hch
  fin_cases hch <;> rfl

theorem save_chars_not_nl : ∀ ch ∈ lit "save", ch ≠ '\n' := by
  intro ch hch
  rw [lit_save_eq] at hch
  fin_cases hch <;> decide

theorem lit_save_ne_nil : lit "save" ≠ [] := by
  rw [lit_save_eq]
  simp

/-- If the full text's lowercase form contains "save", some trimmed non-empty
line of it does too (key step: "save" has no newline and no whitespace, so it
survives line splitting and stripping). -/
theorem save_line_of_save_text {t : List Char}
    (h : containsSub (pyLower t) (lit "save") = true) :
    ∃ l ∈ linesOf t, containsSub (pyLower l) (lit "save") = true := by
  obtain ⟨seg, hmemseg, hseg⟩ :=
    containsSub_splitNl lit_save_ne_nil save_chars_not_nl h
  rw [splitNl_pyLower] at hmemseg
  obtain ⟨seg0, hmem0, hlow⟩ := List.mem_map.mp hmemseg
  subst hlow
  have hstrip : containsSub (stripChars (pyLower seg0)) (lit "save") = true :=
    containsSub_stripChars lit_save_ne_nil save_chars_not_space hseg
  rw [stripChars_pyLower] at hstrip
  refine ⟨stripChars seg0, ?_, hstrip⟩
  unfold linesOf
  apply List.mem_filter.mpr
  constructor
  · exact List.mem_map.mpr ⟨seg0, hmem0, rfl⟩
  · have hne : pyLower (stripChars seg0) ≠ [] :=
      ne_nil_of_containsSub lit_save_ne_nil hstrip
    cases he : stripChars seg0 with
    | nil =>
      rw [he] at hne
      exact absurd rfl hne
    | cons _ _ => rfl

/-- Savings present forces a description: the description loop fires on the
line carrying the "save" phrase (or an earlier matching line). -/
theorem description_of_savings {t s : List Char} (h : extract_savings t = some s) :
    (findDescription (linesOf t)).isSome = true := by
  obtain ⟨l, hmem, hsave⟩ := save_line_of_save_text (extract_savings_containsSave h)
  exact findDescription_isSome_of_save hmem hsave

theorem mem_linesOf_ne_nil {t : List Char} {l : List Char} (h : l ∈ linesOf t) :
    l ≠ [] := by
  unfold linesOf at h
  have := (List.mem_filter.mp h).2
  intro he
  subst he
  simp at this

/-!
## Extractor and classifier unfolding lemmas
-/

theorem extract_deal_info_eq (container : List (List Char)) :
    extract_deal_info container =
      if (get_text container).isEmpty || (get_text container).length < 5 then none
      else if !has_deal_signals (get_text container) then none
      else some (mk_record (get_text container)) := rfl

theorem extract_some_elim {container : List (List Char)} {r : DealRecord}
    (h : extract_deal_info container = some r) :
    r = mk_record (get_text container) ∧ has_deal_signals (get_text container) = true := by
  rw [extract_deal_info_eq] at h
  by_cases h1 : ((get_text container).isEmpty || (get_text container).length < 5) = true
  · rw [if_pos h1] at h
    exact absurd h (by simp)
  · rw [if_neg h1] at h
    by_cases h2 : (!has_deal_signals (get_text container)) = true
    · rw [if_pos h2] at h
      exact absurd h (by simp)
    · rw [if_neg h2] at h
      refine ⟨(Option.some.inj h).symm, ?_⟩
      cases he : has_deal_signals (get_text container) with
      | true => rfl
      | false =>
        rw [he] at h2
        exact absurd rfl h2

theorem pyTruthy_savings (t : List Char) :
    pyTruthyOptStr (extract_savings t) = (extract_savings t).isSome := by
  cases he : extract_savings t with
  | none => rfl
  | some s =>
    obtain ⟨d, hd⟩ := extract_savings_shape he
    subst hd
    rfl

theorem pyTruthy_descr (t : List Char) :
    pyTruthyOptStr (findDescription (linesOf t)) = (findDescription (linesOf t)).isSome := by
  cases he : findDescription (linesOf t) with
  | none => rfl
  | some l =>
    have hne : l ≠ [] := mem_linesOf_ne_nil (findDescription_mem he)
    cases hl : l with
    | nil => exact absurd hl hne
    | cons _ _ => rfl

theorem detect_bogo_eq_or (t : List Char) :
    detect_bogo t =
      (searchBool bogoNumAt (pyLower t) || containsSub (pyLower t) (lit "bogo") ||
        bogo_phrases.any (fun phrase => containsSub (pyLower t) phrase)) := by
  unfold detect_bogo
  by_cases h1 : searchBool bogoNumAt (pyLower t) = true
  · rw [if_pos h1, h1]
    simp
  · rw [if_neg h1, Bool.eq_false_iff.mpr h1]
    by_cases h2 : containsSub (pyLower t) (lit "bogo") = true
    · rw [if_pos h2, h2]
      simp
    · rw [if_neg h2, Bool.eq_false_iff.mpr h2]
      simp

theorem categorize_deal_eq (text : List Char) (prices : List (List Char)) :
    categorize_deal text prices =
      if detect_bogo text then lit "BOGO"
      else if containsSub (pyLower text) (lit "save") ||
          searchBool saveUpToBareAt (pyLower text) then lit "Discount"
      else if prices.length > 1 then lit "Price Drop"
      else lit "Deal" := rfl

theorem categorize_bogo {text : List Char} (prices : List (List Char))
    (h : detect_bogo text = true) : categorize_deal text prices = lit "BOGO" := by
  rw [categorize_deal_eq, if_pos h]

theorem categorize_discount {text : List Char} (prices : List (List Char))
    (hb : detect_bogo text = false)
    (hs : containsSub (pyLower text) (lit "save") = true) :
    categorize_deal text prices = lit "Discount" := by
  rw [categorize_deal_eq, if_neg (by simp [hb]), if_pos (by rw [hs]; simp)]

theorem save_cond_false {text : List Char}
    (hs : containsSub (pyLower text) (lit "save") = false) :
    (containsSub (pyLower text) (lit "save") ||
      searchBool saveUpToBareAt (pyLower text)) = false := by
  rw [hs]
  simp only [Bool.false_or]
  cases hb : searchBool saveUpToBareAt (pyLower text) with
  | false => rfl
  | true =>
    have := searchBool_containsSub (fun _ => saveUpToBareAt_isPrefixOf) hb
    rw [this] at hs
    exact absurd hs (by simp)

theorem categorize_price_drop {text : List Char} {prices : List (List Char)}
    (hb : detect_bogo text = false)
    (hs : containsSub (pyLower text) (lit "save") = false)
    (hp : prices.length > 1) : categorize_deal text prices = lit "Price Drop" := by
  rw [categorize_deal_eq, if_neg (by simp [hb]),
    if_neg (by rw [save_cond_false hs]; simp), if_pos (by simpa using hp)]

theorem categorize_default {text : List Char} {prices : List (List Char)}
    (hb : detect_bogo text = false)
    (hs : containsSub (pyLower text) (lit "save") = false)
    (hp : prices.length ≤ 1) : categorize_deal text prices = lit "Deal" := by
  rw [categorize_deal_eq, if_neg (by simp [hb]),
    if_neg (by rw [save_cond_false hs]; simp), if_neg (by simpa using hp)]

/-!
## Container-walk lemmas
-/

theorem walk_up_eq_find_take : ∀ (chain : List PNode) (k : Nat),
    walk_up chain k = (chain.take k).find? qualifies := by
  intro chain
  induction chain with
  | nil =>
    intro k
    cases k <;> rfl
  | cons p rest ih =>
    intro k
    cases k with
    | zero => rfl
    | succ k =>
      show (if qualifies p then some p else walk_up rest k) = (p :: rest.take k).find? qualifies
      by_cases hq : qualifies p = true
      · rw [if_pos hq, List.find?_cons_of_pos _ hq]
      · rw [if_neg hq, List.find?_cons_of_neg _ hq]
        exact ih k

theorem mem_add_container_left {s : List PNode} {q : PNode} (p : PNode) (h : q ∈ s) :
    q ∈ add_container s p := by
  unfold add_container
  split
  · exact h
  · exact List.mem_append_left _ h

theorem mem_add_container_elim {s : List PNode} {p q : PNode}
    (h : q ∈ add_container s p) : q ∈ s ∨ q = p := by
  unfold add_container at h
  split at h
  · exact Or.inl h
  · rcases List.mem_append.mp h with hs | hp
    · exact Or.inl hs
    · exact Or.inr (List.mem_singleton.mp hp)

theorem id_mem_add_container (s : List PNode) (p : PNode) :
    ∃ q ∈ add_container s p, q.id = p.id := by
  unfold add_container
  by_cases h : (s.any fun q => q.id = p.id) = true
  · rw [if_pos h]
    obtain ⟨q, hq, hid⟩ := List.any_eq_true.mp h
    exact ⟨q, hq, by simpa using hid⟩
  · rw [if_neg h]
    exact ⟨p, List.mem_append_right _ (List.mem_singleton.mpr rfl), rfl⟩

theorem add_container_nodup {s : List PNode} (p : PNode)
    (h : (s.map PNode.id).Nodup) : ((add_container s p).map PNode.id).Nodup := by
  unfold add_container
  by_cases hc : (s.any fun q => q.id = p.id) = true
  · rw [if_pos hc]
    exact h
  · rw [if_neg hc]
    rw [List.map_append]
    rw [List.nodup_append]
    refine ⟨h, List.nodup_singleton _, ?_⟩
    intro a ha hb
    simp only [List.map_cons, List.map_nil, List.mem_singleton] at hb
    subst hb
    obtain ⟨q, hq, hid⟩ := List.mem_map.mp ha
    exact hc (List.any_eq_true.mpr ⟨q, hq, by simp [hid]⟩)

theorem mem_foldl_locStep_of_mem {q : PNode} :
    ∀ (chains : List (List PNode)) (s : List PNode), q ∈ s → q ∈ chains.foldl locStep s := by
  intro chains
  induction chains with
  | nil => exact fun s h => h
  | cons c cs ih =>
    intro s h
    apply ih
    unfold locStep
    cases walk_up c 10 with
    | none => exact h
    | some p => exact mem_add_container_left p h

theorem foldl_locStep_sound {q : PNode} :
    ∀ (chains : List (List PNode)) (s : List PNode), q ∈ chains.foldl locStep s →
      q ∈ s ∨ ∃ chain ∈ chains, walk_up chain 10 = some q := by
  intro chains
  induction chains with
  | nil => exact fun s h => Or.inl h
  | cons c cs ih =>
    intro s h
    rcases ih (locStep s c) h with hs | ⟨chain, hmem, hwalk⟩
    · unfold locStep at hs
      cases hw : walk_up c 10 with
      | none =>
        rw [hw] at hs
        exact Or.inl hs
      | some p =>
        rw [hw] at hs
        rcases mem_add_container_elim hs with hss | hqp
        · exact Or.inl hss
        · subst hqp
          exact Or.inr ⟨c, List.mem_cons_self _ _, hw⟩
    · exact Or.inr ⟨chain, List.mem_cons_of_mem _ hmem, hwalk⟩

theorem foldl_locStep_complete {p : PNode} :
    ∀ (chains : List (List PNode)) (s : List PNode) (chain : List PNode),
      chain ∈ chains → walk_up chain 10 = some p →
      ∃ q ∈ chains.foldl locStep s, q.id = p.id := by
  intro chains
  induction chains with
  | nil =>
    intro s chain h
    exact absurd h (List.not_mem_nil chain)
  | cons c cs ih =>
    intro s chain hmem hwalk
    rcases List.mem_cons.mp hmem with hh | ht
    · subst hh
      have hstep : locStep s chain = add_container s p := by
        unfold locStep
        rw [hwalk]
      obtain ⟨q, hq, hid⟩ := id_mem_add_container s p
      rw [← hstep] at hq
      exact ⟨q, mem_foldl_locStep_of_mem cs _ hq, hid⟩
    · exact ih (locStep s c) chain ht hwalk

theorem foldl_locStep_nodup :
    ∀ (chains : List (List PNode)) (s : List PNode), (s.map PNode.id).Nodup →
      ((chains.foldl locStep s).map PNode.id).Nodup := by
  intro chains
  induction chains with
  | nil => exact fun s h => h
  | cons c cs ih =>
    intro s h
    apply ih
    unfold locStep
    cases walk_up c 10 with
    | none => exact h
    | some p => exact add_container_nodup p h

/-!
## Claim theorems
-/

/-- C1, counterexample: for the container `saveThenBogo`, whose text has an
earlier line containing "save" and a later line containing both "buy" and
"get", `extract_deal_info` sets `deal_description` to the earlier save line,
not to the buy/get line the claim predicts: the loop breaks at the first line
matching either test, so there is no global buy/get precedence. -/
theorem claim1_counterexample :
    (extract_deal_info saveThenBogo).map (fun r => r.deal_description) =
      some (some (lit "Save $1.00 now")) ∧
    (extract_deal_info saveThenBogo).map (fun r => r.deal_description) ≠
      some (some (lit "Buy 1 Get 1 free")) := by
  exact ⟨by decide, by decide⟩

/-- C1, amended: the deal description is the first line (in order) that
either contains both "buy" and "get" (case-insensitive) or contains "save";
it is absent exactly when no line matches either test. In particular, for a
container with an earlier save line and a later buy/get line, the description
is the earlier save line. -/
theorem claim1_description_first_matching_line :
    (∀ container : List (List Char),
      (extract_deal_info container).elim True
        (fun r => r.deal_description = (linesOf (get_text container)).find? descrPred)) ∧
    (extract_deal_info saveThenBogo).map (fun r => r.deal_description) =
      some (some (lit "Save $1.00 now")) := by
  constructor
  · intro container
    cases he : extract_deal_info container with
    | none => exact trivial
    | some r =>
      obtain ⟨hr, _⟩ := extract_some_elim he
      show r.deal_description = _
      rw [hr]
      show findDescription (linesOf (get_text container)) = _
      exact findDescription_eq_find _
  · decide

/-- C2, counterexample: `build_cache_key` prepends the literal
`"all_deals::"`, so the key is never exactly the store number nor exactly
`"ALL"`. -/
theorem claim2_counterexample :
    build_cache_key (some "0123") ≠ "0123" ∧ build_cache_key none ≠ "ALL" ∧
    build_cache_key (some "0123") = "all_deals::0123" ∧
    build_cache_key none = "all_deals::ALL" :=
  ⟨by decide, by decide, rfl, rfl⟩

/-- C2, amended: the cache key is `"all_deals::"` followed by the store
number when one is present (and non-empty), and `"all_deals::ALL"`
otherwise; there are no other characters beyond this prefix and suffix. -/
theorem claim2_cache_key_prefixed :
    (∀ s : String, s ≠ "" → build_cache_key (some s) = "all_deals::" ++ s) ∧
    build_cache_key none = "all_deals::ALL" ∧
    build_cache_key (some "") = "all_deals::ALL" := by
  refine ⟨?_, rfl, rfl⟩
  intro s hs
  show "all_deals::" ++ (if s = "" then "ALL" else s) = "all_deals::" ++ s
  rw [if_neg hs]

/-- Witness for C2 at the concrete store number "0123". -/
theorem claim2_cache_key_prefixed_witness :
    ("0123" : String) ≠ "" ∧ build_cache_key (some "0123") = "all_deals::" ++ "0123" :=
  ⟨by decide, claim2_cache_key_prefixed.1 "0123" (by decide)⟩

/-- C3: the walk from one price node's ancestor chain (immediate parent
first) inspects at most 10 ancestors and returns the first qualifying one —
`div` whose class string contains a container keyword or which carries a
truthy marker attribute — and returns nothing when no qualifying ancestor
appears within 10 steps; a marker-bearing `div` qualifies regardless of its
class. -/
theorem claim3_walk_first_qualifying_within_ten :
    (∀ chain : List PNode, walk_up chain 10 = (chain.take 10).find? qualifies) ∧
    (∀ n : PNode, n.name = "div" → markerMatch n = true → qualifies n = true) := by
  constructor
  · intro chain
    exact walk_up_eq_find_take chain 10
  · intro n hname hm
    unfold qualifies
    rw [hm]
    simp [hname]

/-- Witness for C3 at the marker-bearing node with no keyword class. -/
theorem claim3_walk_first_qualifying_within_ten_witness :
    markerNode.name = "div" ∧ markerMatch markerNode = true ∧
    qualifies markerNode = true :=
  ⟨rfl, by decide,
    claim3_walk_first_qualifying_within_ten.2 markerNode rfl (by decide)⟩

/-- C4: the locator's output is a set keyed by node identity: every output
node is the walk result of some input chain, every found container is
represented in the output by identity, identities are pairwise distinct
(a container reached from several price nodes appears once), and two
distinct nodes with identical markup (`twinA`, `twinB`) are both present,
while one node reached twice (`nodeC`) appears once. -/
theorem claim4_container_set_identity :
    (∀ (chains : List (List PNode)) (q : PNode), q ∈ find_containers chains →
      ∃ chain ∈ chains, walk_up chain 10 = some q) ∧
    (∀ (chains : List (List PNode)) (chain : List PNode) (p : PNode),
      chain ∈ chains → walk_up chain 10 = some p →
      ∃ q ∈ find_containers chains, q.id = p.id) ∧
    (∀ chains : List (List PNode), ((find_containers chains).map PNode.id).Nodup) ∧
    find_containers [[twinA], [twinB]] = [twinA, twinB] ∧
    find_containers [[nodeC], [nodeC]] = [nodeC] := by
  refine ⟨?_, ?_, ?_, by decide, by decide⟩
  · intro chains q h
    rcases foldl_locStep_sound chains [] h with hnil | hex
    · exact absurd hnil (List.not_mem_nil q)
    · exact hex
  · intro chains chain p hmem hwalk
    exact foldl_locStep_complete chains [] chain hmem hwalk
  · intro chains
    exact foldl_locStep_nodup chains [] (by simp)

/-- Witness for C4 applying both directions at concrete chains. -/
theorem claim4_container_set_identity_witness :
    (∃ chain ∈ [[nodeC]], walk_up chain 10 = some nodeC) ∧
    (∃ q ∈ find_containers [[twinA], [twinB]], q.id = twinA.id) :=
  ⟨claim4_container_set_identity.1 [[nodeC]] nodeC (by decide),
    claim4_container_set_identity.2.1 [[twinA], [twinB]] [twinA] twinA
      (by decide) (by decide)⟩

theorem has_deal_signals_false_iff (t : List Char) :
    has_deal_signals t = false ↔
      (detect_bogo t = false ∧ extract_savings t = none ∧
        findDescription (linesOf t) = none ∧ (findallPrices t).length ≤ 1) := by
  unfold has_deal_signals
  rw [pyTruthy_savings, pyTruthy_descr]
  constructor
  · intro h
    simp only [Bool.or_eq_false_iff] at h
    obtain ⟨⟨⟨hb, hs⟩, hd⟩, hp⟩ := h
    refine ⟨hb, ?_, ?_, ?_⟩
    · cases he : extract_savings t with
      | none => rfl
      | some s =>
        rw [he] at hs
        exact absurd hs (by simp)
    · cases he : findDescription (linesOf t) with
      | none => rfl
      | some l =>
        rw [he] at hd
        exact absurd hd (by simp)
    · have := of_decide_eq_false hp
      omega
  · intro ⟨hb, hs, hd, hp⟩
    rw [hb, hs, hd]
    have hlen : decide ((findallPrices t).length > 1) = false :=
      decide_eq_false (by omega)
    rw [hlen]
    rfl

/-- C5: the extractor yields absence exactly when the normalized container
text is empty or shorter than 5 characters, or all four deal signals fail
(no BOGO, no savings, no description, at most one price token); conversely a
record is only produced when at least one signal holds. -/
theorem claim5_extractor_absence_iff :
    (∀ container : List (List Char),
      (extract_deal_info container = none ↔
        (get_text container = [] ∨ (get_text container).length < 5 ∨
          (detect_bogo (get_text container) = false ∧
            extract_savings (get_text container) = none ∧
            findDescription (linesOf (get_text container)) = none ∧
            (findallPrices (get_text container)).length ≤ 1)))) ∧
    (∀ (container : List (List Char)) (r : DealRecord),
      extract_deal_info container = some r →
      (r.is_bogo = true ∨ r.savings.isSome = true ∨ r.deal_description.isSome = true ∨
        (findallPrices (get_text container)).length > 1)) := by
  constructor
  · intro container
    rw [extract_deal_info_eq]
    by_cases h1 : ((get_text container).isEmpty ||
        decide ((get_text container).length < 5)) = true
    · rw [if_pos h1]
      simp only [true_iff]
      rcases Bool.or_eq_true _ _ |>.mp h1 with he | hl
      · exact Or.inl (by simpa using he)
      · exact Or.inr (Or.inl (of_decide_eq_true hl))
    · rw [if_neg h1]
      have h1f := Bool.eq_false_iff.mpr h1
      simp only [Bool.or_eq_false_iff] at h1f
      obtain ⟨hemp, hlen⟩ := h1f
      cases hd : has_deal_signals (get_text container) with
      | false =>
        rw [if_pos (by decide : (!false) = true)]
        simp only [true_iff]
        exact Or.inr (Or.inr ((has_deal_signals_false_iff _).mp hd))
      | true =>
        rw [if_neg (by decide : ¬((!true) = true))]
        refine iff_of_false (by simp) ?_
        intro hcon
        rcases hcon with he | hl | hfail
        · rw [he] at hemp
          exact absurd hemp (by simp)
        · exact absurd (decide_eq_true hl) (Bool.eq_false_iff.mp hlen)
        · rw [(has_deal_signals_false_iff _).mpr hfail] at hd
          exact absurd hd (by simp)
  · intro container r h
    obtain ⟨hr, hsig⟩ := extract_some_elim h
    subst hr
    unfold has_deal_signals at hsig
    rw [pyTruthy_savings, pyTruthy_descr] at hsig
    rcases Bool.or_eq_true _ _ |>.mp hsig with h3 | hp
    · rcases Bool.or_eq_true _ _ |>.mp h3 with h2 | hd
      · rcases Bool.or_eq_true _ _ |>.mp h2 with hb | hs
        · exact Or.inl hb
        · exact Or.inr (Or.inl hs)
      · exact Or.inr (Or.inr (Or.inl hd))
    · exact Or.inr (Or.inr (Or.inr (of_decide_eq_true hp)))

/-- Witness for C5 at the worked Ice Cream container. -/
theorem claim5_extractor_absence_iff_witness :
    extract_deal_info iceCream = some iceRec ∧
    (iceRec.is_bogo = true ∨ iceRec.savings.isSome = true ∨
      iceRec.deal_description.isSome = true ∨
      (findallPrices (get_text iceCream)).length > 1) :=
  ⟨by decide, claim5_extractor_absence_iff.2 iceCream iceRec (by decide)⟩

/-- C6: a cache read yields absence exactly when there is no entry under the
key, the entry's timestamp field is absent or non-numeric (in Python's sense,
where booleans count as numeric), or `now - timestamp > ttl_seconds`;
otherwise it returns the stored entry unchanged. The entry with timestamp
`now - 3700` read with a 3600-second TTL yields absence. -/
theorem claim6_cache_read_iff :
    (∀ (cache : List (String × JEntry)) (key : String) (ttl now : Int),
      (read_cache_entry cache key ttl now = none ↔
        (cache_lookup cache key = none ∨
          ∃ entry, cache_lookup cache key = some entry ∧
            (jsonGet entry "timestamp" = none ∨
              ∃ ts, jsonGet entry "timestamp" = some ts ∧
                (isNumericPy ts = false ∨ now - toNumPy ts > ttl))))) ∧
    (∀ (cache : List (String × JEntry)) (key : String) (ttl now : Int)
        (entry : JEntry) (ts : JVal),
      cache_lookup cache key = some entry → jsonGet entry "timestamp" = some ts →
      isNumericPy ts = true → now - toNumPy ts ≤ ttl →
      read_cache_entry cache key ttl now = some entry) ∧
    read_cache_entry demoCache "all_deals::ALL" 3600 demoNow = none := by
  have hread_none : ∀ (cache : List (String × JEntry)) (key : String) (ttl now : Int),
      cache_lookup cache key = none → read_cache_entry cache key ttl now = none := by
    intro cache key ttl now h
    unfold read_cache_entry
    rw [h]
  have hread_some : ∀ (cache : List (String × JEntry)) (key : String) (ttl now : Int)
      (entry : JEntry), cache_lookup cache key = some entry →
      read_cache_entry cache key ttl now = check_entry entry ttl now := by
    intro cache key ttl now entry h
    unfold read_cache_entry
    rw [h]
  have hcheck_ts : ∀ (entry : JEntry) (ttl now : Int) (ts : JVal),
      entry.isEmpty = false → jsonGet entry "timestamp" = some ts →
      check_entry entry ttl now =
        if !isNumericPy ts then none
        else if now - toNumPy ts > ttl then none else some entry := by
    intro entry ttl now ts hemp hts
    unfold check_entry
    rw [hemp, hts]
    simp only [Bool.false_eq_true, if_false]
  refine ⟨?_, ?_, by decide⟩
  · intro cache key ttl now
    cases hl : cache_lookup cache key with
    | none => exact iff_of_true (hread_none cache key ttl now hl) (Or.inl rfl)
    | some entry =>
      rw [hread_some cache key ttl now entry hl]
      by_cases hemp : entry.isEmpty = true
      · have hentry : entry = [] := by
          cases entry with
          | nil => rfl
          | cons _ _ => simp at hemp
        subst hentry
        refine iff_of_true ?_ (Or.inr ⟨[], rfl, Or.inl rfl⟩)
        unfold check_entry
        rfl
      · have hempf : entry.isEmpty = false := Bool.eq_false_iff.mpr hemp
        cases hts : jsonGet entry "timestamp" with
        | none =>
          refine iff_of_true ?_ (Or.inr ⟨entry, rfl, Or.inl hts⟩)
          unfold check_entry
          rw [hempf, hts]
          simp only [Bool.false_eq_true, if_false]
        | some ts =>
          rw [hcheck_ts entry ttl now ts hempf hts]
          by_cases hnum : isNumericPy ts = true
          · rw [if_neg (by rw [hnum]; decide)]
            by_cases hage : now - toNumPy ts > ttl
            · rw [if_pos hage]
              exact iff_of_true rfl
                (Or.inr ⟨entry, rfl, Or.inr ⟨ts, hts, Or.inr hage⟩⟩)
            · rw [if_neg hage]
              refine iff_of_false (by simp) ?_
              intro hcon
              rcases hcon with hn | ⟨entry', he', hbad⟩
              · exact absurd hn (by simp)
              · have : entry = entry' := Option.some.inj he'
                subst this
                rcases hbad with htn | ⟨ts', hts', hbad2⟩
                · rw [hts] at htn
                  exact absurd htn (by simp)
                · rw [hts] at hts'
                  have : ts = ts' := Option.some.inj hts'
                  subst this
                  rcases hbad2 with hf | hgt
                  · rw [hnum] at hf
                    exact absurd hf (by simp)
                  · exact absurd hgt hage
          · have hnf : isNumericPy ts = false := Bool.eq_false_iff.mpr hnum
            rw [if_pos (by rw [hnf]; decide)]
            exact iff_of_true rfl
              (Or.inr ⟨entry, rfl, Or.inr ⟨ts, hts, Or.inl hnf⟩⟩)
  · intro cache key ttl now entry ts hl hts hnum hage
    rw [hread_some cache key ttl now entry hl]
    have hemp : entry.isEmpty = false := by
      cases entry with
      | nil => simp [jsonGet] at hts
      | cons _ _ => rfl
    rw [hcheck_ts entry ttl now ts hemp hts]
    rw [if_neg (by rw [hnum]; decide)]
    rw [if_neg (by omega)]

/-- Witness for C6: the demo entry read with a TTL large enough to cover the
3700-second age is returned unchanged. -/
theorem claim6_cache_read_iff_witness :
    cache_lookup demoCache "all_deals::ALL" =
      some [("timestamp", JVal.jnum (demoNow - 3700))] ∧
    read_cache_entry demoCache "all_deals::ALL" 7200 demoNow =
      some [("timestamp", JVal.jnum (demoNow - 3700))] :=
  ⟨by decide,
    claim6_cache_read_iff.2.1 demoCache "all_deals::ALL" 7200 demoNow
      [("timestamp", JVal.jnum (demoNow - 3700))] (JVal.jnum (demoNow - 3700))
      (by decide) (by decide) (by decide) (by decide)⟩

/-- C7: `categorize_deal` applies exactly one rule in fixed precedence —
BOGO when `detect_bogo` holds, else Discount when the lowercased text
contains "save", else Price Drop when more than one price was found, else
Deal — and any text containing a BOGO phrase together with "save" is
classified BOGO, never Discount. -/
theorem claim7_categorize_precedence :
    (∀ (text : List Char) (prices : List (List Char)), detect_bogo text = true →
      categorize_deal text prices = lit "BOGO") ∧
    (∀ (text : List Char) (prices : List (List Char)), detect_bogo text = false →
      containsSub (pyLower text) (lit "save") = true →
      categorize_deal text prices = lit "Discount") ∧
    (∀ (text : List Char) (prices : List (List Char)), detect_bogo text = false →
      containsSub (pyLower text) (lit "save") = false → prices.length > 1 →
      categorize_deal text prices = lit "Price Drop") ∧
    (∀ (text : List Char) (prices : List (List Char)), detect_bogo text = false →
      containsSub (pyLower text) (lit "save") = false → prices.length ≤ 1 →
      categorize_deal text prices = lit "Deal") ∧
    (∀ (text : List Char) (prices : List (List Char)) (phrase : List Char),
      phrase ∈ lit "bogo" :: bogo_phrases →
      containsSub (pyLower text) phrase = true →
      containsSub (pyLower text) (lit "save") = true →
      categorize_deal text prices = lit "BOGO" ∧
        categorize_deal text prices ≠ lit "Discount") := by
  refine ⟨?_, ?_, ?_, ?_, ?_⟩
  · intro text prices h
    exact categorize_bogo prices h
  · intro text prices hb hs
    exact categorize_discount prices hb hs
  · intro text prices hb hs hp
    exact categorize_price_drop hb hs hp
  · intro text prices hb hs hp
    exact categorize_default hb hs hp
  · intro text prices phrase hmem hph _
    have hb : detect_bogo text = true := by
      rw [detect_bogo_eq_or]
      rcases List.mem_cons.mp hmem with hh | ht
      · subst hh
        rw [hph]
        simp
      · have hany : (bogo_phrases.any fun p => containsSub (pyLower text) p) = true :=
          List.any_eq_true.mpr ⟨phrase, ht, hph⟩
        rw [hany]
        simp
    refine ⟨categorize_bogo prices hb, ?_⟩
    rw [categorize_bogo prices hb]
    decide

/-- Witness for C7 at text with both a BOGO phrase and "save". -/
theorem claim7_categorize_precedence_witness :
    lit "bogo" ∈ lit "bogo" :: bogo_phrases ∧
    containsSub (pyLower (lit "BOGO! Save $2.00")) (lit "bogo") = true ∧
    containsSub (pyLower (lit "BOGO! Save $2.00")) (lit "save") = true ∧
    (categorize_deal (lit "BOGO! Save $2.00") [] = lit "BOGO" ∧
      categorize_deal (lit "BOGO! Save $2.00") [] ≠ lit "Discount") :=
  ⟨List.mem_cons_self _ _, by decide, by decide,
    claim7_categorize_precedence.2.2.2.2 (lit "BOGO! Save $2.00") [] (lit "bogo")
      (List.mem_cons_self _ _) (by decide) (by decide)⟩

/-- C8: the search filter keeps exactly the deals whose lowercased product
name contains some lowercased search term (terms OR-combined), preserves the
input order (the output is a sublist of the input), and is invariant under
the case of the search terms: filtering by "LAY" and by "lay" agree on every
deal list. -/
theorem claim8_filter_characterization :
    (∀ (deals : List DealRecord) (terms : List (List Char)) (d : DealRecord),
      d ∈ filter_matching deals terms ↔
        (d ∈ deals ∧ ∃ t ∈ terms,
          containsSub (pyLower d.product_name) (pyLower t) = true)) ∧
    (∀ (deals : List DealRecord) (terms : List (List Char)),
      (filter_matching deals terms).Sublist deals) ∧
    (∀ deals : List DealRecord,
      filter_matching deals [lit "LAY"] = filter_matching deals [lit "lay"]) := by
  refine ⟨?_, ?_, ?_⟩
  · intro deals terms d
    unfold filter_matching
    rw [List.mem_filter]
    constructor
    · intro ⟨hmem, hpred⟩
      obtain ⟨t, ht, hc⟩ := List.any_eq_true.mp hpred
      obtain ⟨t0, ht0, hlow⟩ := List.mem_map.mp ht
      exact ⟨hmem, t0, ht0, by rw [hlow]; exact hc⟩
    · intro ⟨hmem, t0, ht0, hc⟩
      exact ⟨hmem, List.any_eq_true.mpr ⟨pyLower t0, List.mem_map.mpr ⟨t0, ht0, rfl⟩, hc⟩⟩
  · intro deals terms
    exact List.filter_sublist deals
  · intro deals
    unfold filter_matching
    rw [show List.map pyLower [lit "LAY"] = List.map pyLower [lit "lay"] from by decide]

/-- C9: savings extraction tries `save up to $X.XX` on the lowercased text
first and falls back to `save $X.XX` only when the first pattern finds no
match, returning the amount prefixed with `$`; the Ice Cream container
yields savings `$2.00`. -/
theorem claim9_savings_two_pattern :
    (∀ (t d : List Char), searchCapture saveUpToAt (pyLower t) = some d →
      extract_savings t = some ('$' :: d)) ∧
    (∀ t : List Char, searchCapture saveUpToAt (pyLower t) = none →
      extract_savings t = (searchCapture saveAt (pyLower t)).map (fun d => '$' :: d)) ∧
    (extract_deal_info iceCream).map (fun r => r.savings) = some (some (lit "$2.00")) := by
  refine ⟨?_, ?_, by decide⟩
  · intro t d h
    unfold extract_savings
    rw [h]
  · intro t h
    unfold extract_savings
    rw [h]
    cases he : searchCapture saveAt (pyLower t) <;> rfl

/-- Witness for C9 at the phrase "Save up to $2.00". -/
theorem claim9_savings_two_pattern_witness :
    searchCapture saveUpToAt (pyLower (lit "Save up to $2.00")) = some (lit "2.00") ∧
    extract_savings (lit "Save up to $2.00") = some ('$' :: lit "2.00") :=
  ⟨by decide,
    claim9_savings_two_pattern.1 (lit "Save up to $2.00") (lit "2.00") (by decide)⟩

/-- C10: every produced record is internally consistent: `is_bogo` forces
deal type BOGO; a present savings amount forces deal type BOGO or Discount;
and a present savings amount forces a present description. -/
theorem claim10_record_consistency :
    ∀ (container : List (List Char)) (r : DealRecord),
      extract_deal_info container = some r →
      (r.is_bogo = true → r.deal_type = lit "BOGO") ∧
      (r.savings.isSome = true → (r.deal_type = lit "BOGO" ∨ r.deal_type = lit "Discount")) ∧
      (r.savings.isSome = true → r.deal_description.isSome = true) := by
  intro container r h
  obtain ⟨hr, _⟩ := extract_some_elim h
  subst hr
  refine ⟨?_, ?_, ?_⟩
  · intro hb
    exact categorize_bogo _ hb
  · intro hs
    obtain ⟨s, hsome⟩ := Option.isSome_iff_exists.mp hs
    have hsave := extract_savings_containsSave hsome
    cases hb : detect_bogo (get_text container) with
    | true => exact Or.inl (categorize_bogo _ hb)
    | false => exact Or.inr (categorize_discount _ hb hsave)
  · intro hs
    obtain ⟨s, hsome⟩ := Option.isSome_iff_exists.mp hs
    exact description_of_savings hsome

/-- Witness for C10 at the worked Ice Cream container. -/
theorem claim10_record_consistency_witness :
    extract_deal_info iceCream = some iceRec ∧ iceRec.savings.isSome = true ∧
    iceRec.deal_description.isSome = true :=
  ⟨by decide, by decide,
    (claim10_record_consistency iceCream iceRec (by decide)).2.2 (by decide)⟩

end PublixDeals
